import Mathlib

/-!
Verification of the pipeline-definition core of the cc-utils repository.

The definitions below are a shallow embedding of the Python sources:

* `concourse/pipelines/model/step.py` (`PipelineStep`)
* `concourse/model/traits/release.py` (`ReleaseTraitTransformer`)
* `concourse/model/traits/pullrequest.py` (`PullRequestTraitTransformer`)
* `util.py` (`merge_dicts`, together with the configured `deepmerge` strategies)
* `container/registry.py` (`normalise_image_reference`)

Python strings are modelled as Lean `String` (or `List Char` where we need to
reason about `str.split`/`str.join`), Python dicts as insertion-ordered
association lists, Python sets as lists up to membership, and in-place
mutation as explicit state passing: a method that may mutate its receiver and
raise becomes a function returning the new state paired with an optional
error message.
-/

/-- Character-level test of all characters of a string (Python
`all(map(p, s))`), structurally computable on the underlying character
list. -/
def strAll (p : Char → Bool) (s : String) : Bool :=
  s.data.all p

/-- Character-membership test (Python `c in s`), structurally computable on
the underlying character list. -/
def strContains (s : String) (c : Char) : Bool :=
  s.data.contains c

/-- Prefix test (Python `s.startswith(p)`), structurally computable on the
underlying character lists. -/
def strStartsWith (s p : String) : Bool :=
  p.data.isPrefixOf s.data

/-- Suffix test (Python `s.endswith(p)`), structurally computable on the
underlying character lists. -/
def strEndsWith (s p : String) : Bool :=
  p.data.isSuffixOf s.data

/-- Shell-safe characters, after `shlex._find_unsafe`: the ASCII regex
class `\w` (letters, digits, underscore) together with the characters
`@ % + = : , . -` and the forward slash. -/
def shlexSafeChar (c : Char) : Bool :=
  c.isAlphanum || c == '_' || c == '@' || c == '%' || c == '+' || c == '=' ||
    c == ':' || c == ',' || c == '.' || c == '/' || c == '-'

/-- Embedding of Python `shlex.quote`: the empty string becomes two single
quotes, a string of safe characters is returned unchanged, anything else is
wrapped in single quotes with embedded single quotes escaped. -/
def shlexQuote (s : String) : String :=
  if s = "" then "\x27\x27"
  else if strAll shlexSafeChar s then s
  else "\x27" ++ (s.replace "\x27" "\x27\"\x27\"\x27") ++ "\x27"

/-- Embedding of `posixpath.join` for one extra component: an absolute
component replaces the accumulated path, otherwise a separator is inserted
unless the accumulated path is empty or already ends in one. -/
def pathJoin (a b : String) : String :=
  if strStartsWith b "/" then b
  else if a = "" || strEndsWith a "/" then a ++ b
  else a ++ "/" ++ b

/-- Script type of a step (`concourse/pipelines/modelbase.ScriptType`);
the two values used by the embedded sources. -/
inductive ScriptType where
  | bourneShell
  | python3
deriving DecidableEq, Repr

/-- Notification policy of a step; the sources use the
`NO_NOTIFICATION` value for the synthetic release step and the default
elsewhere. -/
inductive StepNotificationPolicy where
  | defaultPolicy
  | noNotification
deriving DecidableEq, Repr

/-- The value of the raw `execute` attribute of a step: either a single
scalar (rendered by `str`) or a list of tokens. -/
inductive ExecSpec where
  | str (s : String)
  | list (tokens : List String)
deriving DecidableEq, Repr

/-- The raw configuration dictionary a `PipelineStep` is built from; `none`
models an absent key. -/
structure RawStepDict where
  depends : Option (List String)
  outputDir : Option String
  execute : Option ExecSpec
  image : Option String
deriving DecidableEq, Repr

/-- State of a `PipelineStep` (`concourse/pipelines/model/step.py`).
`outputsDict`/`inputsDict` are the insertion-ordered slot dictionaries,
`depends` is the dependency-name set (a list up to membership), and
`rawExecute`/`rawImage` are the step's raw attributes read by
`_argv` and `image()`. -/
structure PipelineStep where
  name : String
  isSynthetic : Bool
  scriptType : ScriptType
  notificationPolicy : StepNotificationPolicy
  outputsDict : List (String × String)
  inputsDict : List (String × String)
  rawExecute : Option ExecSpec
  rawImage : Option String
  depends : List String
deriving DecidableEq, Repr

/-- Embedding of `PipelineStep.add_output`: raising `ValueError` when the
slot name is present, otherwise inserting the entry.  The result pairs the
(possibly unchanged) step state with the optional error. -/
def addOutput (s : PipelineStep) (name variableName : String) :
    PipelineStep × Option String :=
  if s.outputsDict.any (fun p => p.1 == name) then
    (s, some ("output already exists: " ++ name))
  else
    ({ s with outputsDict := s.outputsDict ++ [(name, variableName)] }, none)

/-- Embedding of `PipelineStep.add_input`, symmetric to `addOutput`. -/
def addInput (s : PipelineStep) (name variableName : String) :
    PipelineStep × Option String :=
  if s.inputsDict.any (fun p => p.1 == name) then
    (s, some ("input already exists: " ++ name))
  else
    ({ s with inputsDict := s.inputsDict ++ [(name, variableName)] }, none)

/-- Construction of a `PipelineStep` from its raw dictionary, embedding
`PipelineStep.__init__` together with `custom_init` (invoked on the raw
dictionary by the `ModelBase` constructor, which is not part of the sources;
that invocation is the documented lifecycle of config-backed entities):
a missing `depends` key defaults to the singleton holding the step's own
name, a declared one is converted to a set, and a truthy `output_dir`
registers the `_path`-suffixed output slot. -/
def mkPipelineStep (name : String) (isSynthetic : Bool)
    (scriptType : ScriptType) (notificationPolicy : StepNotificationPolicy)
    (raw : RawStepDict) : PipelineStep :=
  let dep : List String :=
    match raw.depends with
    | none => [name]
    | some l => l.eraseDups
  let s : PipelineStep :=
    { name := name
      isSynthetic := isSynthetic
      scriptType := scriptType
      notificationPolicy := notificationPolicy
      outputsDict := []
      inputsDict := []
      rawExecute := raw.execute
      rawImage := raw.image
      depends := dep }
  match raw.outputDir with
  | some d => if d ≠ "" then (addOutput s (d ++ "_path") (d ++ "_path")).1 else s
  | none => s

/-- Embedding of `PipelineStep._argv`: the raw `execute` attribute defaults
to the step's name; a non-list value yields a singleton (via `str`), a list
yields its tokens individually shell-quoted. -/
def argv (s : PipelineStep) : List String :=
  match s.rawExecute with
  | none => [s.name]
  | some (.str e) => [e]
  | some (.list tokens) => tokens.map shlexQuote

/-- Embedding of `PipelineStep.executable`: the first element of `_argv`
joined behind the prefix path.  The source indexes `_argv()[0]`, which in
Python raises on an empty argv (only possible for a declared empty token
list); the embedding totalises that corner with `headD`. -/
def executable (s : PipelineStep) (pfx : String) : String :=
  pathJoin pfx ((argv s).headD "")

/-- Embedding of `PipelineStep.execute`: replace `argv[0]` by
`executable(prefix)` and join with single spaces. -/
def execLine (s : PipelineStep) (pfx : String) : String :=
  String.intercalate " " (executable s pfx :: (argv s).tail)

/-- Characters admitted in an image reference by `PipelineStep.validate`:
ASCII letters, digits, and `.-_/:`. -/
def allowedImageChar (c : Char) : Bool :=
  c.isAlphanum || c == '.' || c == '-' || c == '_' || c == '/' || c == ':'

/-- Embedding of `PipelineStep.validate`: the checks run only when the
image attribute is truthy (present and non-empty); a forbidden character or
a missing colon yields the corresponding `ModelValidationError` message. -/
def validateErr (s : PipelineStep) : Option String :=
  match s.rawImage with
  | none => none
  | some ref =>
    if ref = "" then none
    else if ¬ (strAll allowedImageChar ref) then
      some ("forbidden character in image reference: " ++ ref)
    else if ¬ (strContains ref ':') then
      some ("image reference must contain colon charater:" ++ ref)
    else none

/-- State-passing form of `PipelineStep.validate`: the method body contains
no assignment, so the translated state component is the receiver itself,
paired with the optional validation error. -/
def validateSt (s : PipelineStep) : PipelineStep × Option String :=
  (s, validateErr s)

/-- Embedding of `PipelineStep._add_dependency`: add the other step's name
to the dependency set (`set.add`: a no-op when already present). -/
def addDependency (s : PipelineStep) (n : String) : PipelineStep :=
  { s with depends := if n ∈ s.depends then s.depends else s.depends ++ [n] }

/-- Lookup in an insertion-ordered association list (the first binding of
the key wins, as in a Python dict with unique keys). -/
def alookup {α : Type} : List (String × α) → String → Option α
  | [], _ => none
  | (k0, v) :: t, k => if k0 = k then some v else alookup t k

/-- Key-presence test of an association list (Python `k in d`). -/
def hasKeyA {α : Type} (d : List (String × α)) (k : String) : Bool :=
  d.any (fun p => p.1 == k)

/-- Replace the binding of key `k` by value `v`, leaving other bindings
unchanged (helper of `dictInsert`). -/
def replaceEntry {α : Type} (k : String) (v : α) :
    (String × α) → (String × α)
  | (k0, w) => if k0 = k then (k, v) else (k0, w)

/-- Embedding of Python dict assignment `d[k] = v`: an existing binding is
replaced in place (its position is preserved), a new key is appended. -/
def dictInsert {α : Type} (d : List (String × α)) (k : String) (v : α) :
    List (String × α) :=
  if hasKeyA d k then d.map (replaceEntry k v)
  else d ++ [(k, v)]

/-- Modelled from the spec: a repository reference (the `RepositoryConfig`
class is absent from src/) carries a logical name, a branch, the is-main
flag, the trigger flag, and — for the pull-request flavour produced by
`pr_repository` — a flavour marker. -/
structure Repository where
  logicalName : String
  branch : String
  isMain : Bool
  trigger : Bool
  isPullRequestVariant : Bool
deriving DecidableEq, Repr

/-- Modelled from the spec: the `JobVariant` aggregate (absent from src/)
owns its repository dictionary and its step registry; `rawRepoTrigger`
models the `trigger` key of the job's raw main-repository configuration
(`pipeline_args.raw` with key `repo`): `none` when the user declared no
`trigger` key, `some b` when the user explicitly configured `b`. -/
structure JobVariant where
  reposDict : List (String × Repository)
  stepsList : List PipelineStep
  rawRepoTrigger : Option Bool
deriving DecidableEq, Repr

/-- Modelled from the spec: `JobVariant.main_repository` (absent from src/)
returns the repository carrying the is-main flag. -/
def mainRepository (jv : JobVariant) : Option Repository :=
  (jv.reposDict.find? (fun p => p.2.isMain)).map (fun p => p.2)

/-- Modelled from the spec: `JobVariant.pr_repository` (absent from src/)
returns the pull-request-flavoured variant of the repository registered
under the given logical name. -/
def prRepository (jv : JobVariant) (name : String) : Option Repository :=
  (alookup jv.reposDict name).map
    (fun r => { r with isPullRequestVariant := true })

/-- The raw dictionary of the steps injected by the trait transformers
(`raw_dict={}`: every key absent). -/
def emptyRaw : RawStepDict :=
  { depends := none, outputDir := none, execute := none, image := none }

/-- The synthetic step injected by `ReleaseTraitTransformer.inject_steps`:
name `release`, synthetic, no-notification policy, python3 script type,
empty raw dictionary. -/
def releaseStepInitial : PipelineStep :=
  mkPipelineStep "release" true .python3 .noNotification emptyRaw

/-- The synthetic step injected by
`PullRequestTraitTransformer.inject_steps`: name `rm_pr_label`, synthetic,
python3 script type, empty raw dictionary, default notification policy. -/
def rmPrLabelStepInitial : PipelineStep :=
  mkPipelineStep "rm_pr_label" true .python3 .defaultPolicy emptyRaw

/-- Force the trigger flag of a main-flagged repository entry to false,
leaving non-main entries unchanged (the `main_repo._trigger = False`
mutation of the shared repository object, seen through the job's
repository dictionary). -/
def setMainTriggerFalse (p : String × Repository) : String × Repository :=
  if p.2.isMain then (p.1, { p.2 with trigger := false }) else p

/-- Embedding of `ReleaseTraitTransformer.process_pipeline_args`.  The
transformer's `release_step` (aliased into the registry in the real flow)
is passed and returned explicitly: every registered step's name is added to
its dependency set, and — when the job has a main repository whose raw
configuration declares no `trigger` key — the main repository's trigger
flag is forced to false. -/
def releaseProcessPipelineArgs (rs : PipelineStep) (jv : JobVariant) :
    PipelineStep × JobVariant :=
  let rs2 := (jv.stepsList.map (fun s => s.name)).foldl addDependency rs
  let jv2 :=
    match mainRepository jv with
    | some _ =>
      if jv.rawRepoTrigger.isNone then
        { jv with reposDict := jv.reposDict.map setMainTriggerFalse }
      else jv
    | none => jv
  (rs2, jv2)

/-- Embedding of `PullRequestTraitTransformer.process_pipeline_args`: fetch
the pull-request variant of the main repository's logical name, force its
trigger flag to true, and register it under that logical name.  `none`
models the attribute error Python would raise without a main repository. -/
def pullRequestProcessPipelineArgs (jv : JobVariant) : Option JobVariant :=
  match mainRepository jv with
  | none => none
  | some mr =>
    match prRepository jv mr.logicalName with
    | none => none
    | some pr =>
      let pr2 := { pr with trigger := true }
      some { jv with reposDict := dictInsert jv.reposDict mr.logicalName pr2 }

/-- A configuration value handled by `util.merge_dicts`: a scalar (opaque
atom), a list, or a dict modelled as an insertion-ordered association
list. -/
inductive MVal where
  | atom (v : String)
  | list (xs : List MVal)
  | dict (kvs : List (String × MVal))
deriving Repr

/-- Structural equality of configuration values, embedding the Python `==`
used by the monkey-patched list-merge strategy's membership test (dict
entries are compared in insertion order). -/
def mbeq : MVal → MVal → Bool
  | .atom a, .atom b => a == b
  | .list (x :: xs), .list (y :: ys) => mbeq x y && mbeq (.list xs) (.list ys)
  | .list [], .list [] => true
  | .dict ((k1, v1) :: xs), .dict ((k2, v2) :: ys) =>
    k1 == k2 && mbeq v1 v2 && mbeq (.dict xs) (.dict ys)
  | .dict [], .dict [] => true
  | _, _ => false

/-- The `other` entries of a dict merge whose keys are absent from `base`;
the `deepmerge` dict strategy appends them in their original order. -/
def newEntries (b o : List (String × MVal)) : List (String × MVal) :=
  o.filter (fun kv => !(hasKeyA b kv.1))

mutual

/-- Embedding of `util.merge_dicts` with its configured `deepmerge`
strategies: dicts merge recursively, lists merge by the monkey-patched
strategy (`base` concatenated with the `other` elements not already in
`base`), and every other combination — scalar conflicts, type conflicts,
types without a strategy — resolves to the `other` (user) value via the
`override` fallback. -/
def merge : MVal → MVal → MVal
  | .dict b, .dict o => .dict (mergeInto b o ++ newEntries b o)
  | .list b, .list o =>
    .list (b ++ o.filter (fun e => !(b.any (fun x => mbeq x e))))
  | _, o => o

/-- The `base` entries of a dict merge, in their original order, with the
values of keys also present in `other` merged recursively (the `deepmerge`
dict strategy updates them in place). -/
def mergeInto : List (String × MVal) → List (String × MVal) →
    List (String × MVal)
  | [], _ => []
  | (k, v) :: t, o =>
    (k, match alookup o k with
        | some w => merge v w
        | none => v) :: mergeInto t o

end

/-- Python `str.split(sep)` on a single-character separator, over strings
modelled as `List Char`: splitting the empty string yields one empty piece,
and every separator occurrence opens a new piece. -/
def pySplit (sep : Char) : List Char → List (List Char)
  | [] => [[]]
  | c :: t =>
    let r := pySplit sep t
    if c = sep then [] :: r
    else
      match r with
      | [] => [[c]]
      | h :: t2 => (c :: h) :: t2

/-- Python `sep.join(pieces)` on a single-character separator, over strings
modelled as `List Char`. -/
def pyJoin (sep : Char) : List (List Char) → List Char
  | [] => []
  | [x] => x
  | x :: y :: t => x ++ sep :: pyJoin sep (y :: t)

/-- Embedding of `container/registry.normalise_image_reference` over
strings modelled as `List Char`: a reference containing `@` is returned
unchanged; otherwise, when the part before the first `/` does not look like
a hostname (no `.` before its first `:`), the default registry host — and,
for a bare image name, the `library` segment — is prepended. -/
def normaliseImageReference (s : List Char) : List Char :=
  if '@' ∈ s then s
  else
    let parts := pySplit '/' s
    let leftPart := parts.headD []
    if '.' ∉ (pySplit ':' leftPart).headD [] then
      let parts2 :=
        if parts.length = 1 then "library".data :: parts else parts
      pyJoin '/' ("registry-1.docker.io".data :: parts2)
    else
      pyJoin '/' parts

/-- The execution line as the specification sentence literally describes
it, for comparison against `execLine`: with no declared command the line is
the step's own name optionally path-prefixed; with a declared command every
token is shell-escaped and `argv[0]` is replaced by the step's own name
optionally path-prefixed, the line being the space-joined result. -/
def specC2Line (s : PipelineStep) (pfx : String) : String :=
  match s.rawExecute with
  | none => pathJoin pfx s.name
  | some (.str e) =>
    String.intercalate " " (pathJoin pfx s.name :: ([e].map shlexQuote).tail)
  | some (.list tokens) =>
    String.intercalate " "
      (pathJoin pfx s.name :: (tokens.map shlexQuote).tail)

/-- The execution line the code actually computes, stated in the amended
specification's words: `argv[0]` — the shell-escaped first declared token
(or the step's name when no command, or the stringified scalar for a
non-list command) — is optionally path-prefixed and the line is the
space-joined result. -/
def execLineAmended (s : PipelineStep) (pfx : String) : String :=
  match s.rawExecute with
  | none => pathJoin pfx s.name
  | some (.str e) => pathJoin pfx e
  | some (.list tokens) =>
    String.intercalate " "
      (pathJoin pfx (shlexQuote (tokens.headD "")) ::
        (tokens.tail.map shlexQuote))

/-- What the specification claims of `validate` for one step: with a
declared reference, a forbidden character or a missing colon yields an
error and an all-allowed colon-containing reference passes; with no image
declared, validation passes. -/
def c3ClaimAt (s : PipelineStep) : Prop :=
  match s.rawImage with
  | some ref =>
    ((¬ (strAll allowedImageChar ref = true) ∨ ¬ (strContains ref ':' = true)) →
      (validateErr s).isSome = true) ∧
    ((strAll allowedImageChar ref = true ∧ strContains ref ':' = true) →
      validateErr s = none)
  | none => validateErr s = none

/-- Concrete step with a declared one-token command, exhibiting that
`argv[0]` is not replaced by the step name. -/
def c2CexStep : PipelineStep :=
  mkPipelineStep "foo" false .bourneShell .defaultPolicy
    { emptyRaw with execute := some (.list ["bar"]) }

/-- Concrete step declaring an empty-string image reference. -/
def c3CexStep : PipelineStep :=
  mkPipelineStep "foo" false .bourneShell .defaultPolicy
    { emptyRaw with image := some "" }

/-- Concrete user-authored step for the witness job variants. -/
def compileStep : PipelineStep :=
  mkPipelineStep "compile" false .bourneShell .defaultPolicy emptyRaw

/-- Concrete main repository for the witness job variants. -/
def mainRepoW : Repository :=
  { logicalName := "repo"
    branch := "master"
    isMain := true
    trigger := true
    isPullRequestVariant := false }

/-- Concrete job variant for the release-trait witnesses: one user step,
the injected release step, a main repository, no `trigger` key in the raw
main-repository configuration. -/
def jvReleaseW : JobVariant :=
  { reposDict := [("repo", mainRepoW)]
    stepsList := [compileStep, releaseStepInitial]
    rawRepoTrigger := none }

/-- Concrete job variant for the pull-request-trait witness. -/
def jvPrW : JobVariant :=
  { reposDict := [("repo", mainRepoW), ("other", { mainRepoW with logicalName := "other", isMain := false })]
    stepsList := [compileStep, rmPrLabelStepInitial]
    rawRepoTrigger := none }

/-- Concrete step declaring a well-formed image reference. -/
def stepImgW : PipelineStep :=
  mkPipelineStep "foo" false .bourneShell .defaultPolicy
    { emptyRaw with image := some "img:tag" }

theorem alookup_append {α : Type} (d e : List (String × α)) (k : String) :
    alookup (d ++ e) k =
      match alookup d k with
      | some v => some v
      | none => alookup e k := by
  induction d with
  | nil => simp [alookup]
  | cons p t ih =>
    obtain ⟨k0, v⟩ := p
    by_cases h : k0 = k <;> simp [alookup, h, ih]

theorem hasKeyA_eq_false_iff {α : Type} (d : List (String × α)) (k : String) :
    hasKeyA d k = false ↔ alookup d k = none := by
  induction d with
  | nil => simp [hasKeyA, alookup]
  | cons p t ih =>
    obtain ⟨k0, v⟩ := p
    by_cases h : k0 = k
    · simp [hasKeyA, alookup, h]
    · simp only [hasKeyA, alookup, h, List.any_cons]
      simpa [hasKeyA, h] using ih

theorem replaceEntry_self {α : Type} (k : String) (v w : α) :
    replaceEntry k v (k, w) = (k, v) := by
  unfold replaceEntry
  exact if_pos rfl

theorem replaceEntry_of_ne {α : Type} (k k0 : String) (v : α) (w : α)
    (h : k0 ≠ k) : replaceEntry k v (k0, w) = (k0, w) := by
  unfold replaceEntry
  exact if_neg h

theorem alookup_map_update {α : Type} (d : List (String × α)) (k : String)
    (v : α) :
    alookup (d.map (replaceEntry k v)) k =
      match alookup d k with
      | some _ => some v
      | none => none := by
  induction d with
  | nil => simp [alookup]
  | cons p t ih =>
    obtain ⟨k0, w⟩ := p
    by_cases h : k0 = k
    · subst h
      rw [List.map_cons, replaceEntry_self]
      simp [alookup, ih]
    · rw [List.map_cons, replaceEntry_of_ne _ _ _ _ h]
      simp [alookup, h, ih]

theorem alookup_map_update_ne {α : Type} (d : List (String × α))
    (k k' : String) (v : α) (h : k' ≠ k) :
    alookup (d.map (replaceEntry k v)) k' = alookup d k' := by
  induction d with
  | nil => simp [alookup]
  | cons p t ih =>
    obtain ⟨k0, w⟩ := p
    by_cases h0 : k0 = k
    · subst h0
      rw [List.map_cons, replaceEntry_self]
      simp [alookup, Ne.symm h, ih]
    · rw [List.map_cons, replaceEntry_of_ne _ _ _ _ h0]
      by_cases h1 : k0 = k' <;> simp [alookup, h0, h1, ih]

theorem alookup_dictInsert_self {α : Type} (d : List (String × α))
    (k : String) (v : α) :
    alookup (dictInsert d k v) k = some v := by
  unfold dictInsert
  by_cases h : hasKeyA d k
  · rw [if_pos h, alookup_map_update]
    have : alookup d k ≠ none := by
      intro hn
      rw [← hasKeyA_eq_false_iff] at hn
      simp [h] at hn
    cases hl : alookup d k with
    | none => exact absurd hl this
    | some w => simp
  · have hb : hasKeyA d k = false := by simpa using h
    rw [if_neg h, alookup_append, (hasKeyA_eq_false_iff d k).mp hb]
    simp [alookup]

theorem alookup_dictInsert_ne {α : Type} (d : List (String × α))
    (k k' : String) (v : α) (h : k' ≠ k) :
    alookup (dictInsert d k v) k' = alookup d k' := by
  unfold dictInsert
  by_cases hk : hasKeyA d k
  · rw [if_pos hk, alookup_map_update_ne _ _ _ _ h]
  · rw [if_neg hk, alookup_append]
    cases hl : alookup d k' with
    | none => simp [alookup, Ne.symm h]
    | some w => simp

theorem mem_addDependency (s : PipelineStep) (n x : String)
    (hx : x ∈ s.depends) : x ∈ (addDependency s n).depends := by
  simp only [addDependency]
  split <;> simp [hx]

theorem self_mem_addDependency (s : PipelineStep) (n : String) :
    n ∈ (addDependency s n).depends := by
  simp only [addDependency]
  split
  next h => exact h
  next h => simp

theorem mem_foldl_addDependency_mono (names : List String)
    (s : PipelineStep) (x : String) (hx : x ∈ s.depends) :
    x ∈ (names.foldl addDependency s).depends := by
  induction names generalizing s with
  | nil => exact hx
  | cons n t ih => exact ih _ (mem_addDependency s n x hx)

theorem mem_foldl_addDependency (names : List String) (s : PipelineStep)
    (x : String) (hx : x ∈ names) :
    x ∈ (names.foldl addDependency s).depends := by
  induction names generalizing s with
  | nil => cases hx
  | cons n t ih =>
    rcases List.mem_cons.mp hx with rfl | hmem
    · exact mem_foldl_addDependency_mono t _ x (self_mem_addDependency s x)
    · exact ih _ hmem

/-- C4: for every step, `add_output` (respectively `add_input`) fails with
the duplicate-slot error exactly when the name is already bound in the
respective mapping, leaving the step unchanged; otherwise it only appends
the single new binding. -/
theorem addSlot_spec (s : PipelineStep) (name var : String) :
    (s.outputsDict.any (fun p => p.1 == name) = true →
      addOutput s name var = (s, some ("output already exists: " ++ name))) ∧
    (s.outputsDict.any (fun p => p.1 == name) = false →
      addOutput s name var =
        ({ s with outputsDict := s.outputsDict ++ [(name, var)] }, none)) ∧
    (s.inputsDict.any (fun p => p.1 == name) = true →
      addInput s name var = (s, some ("input already exists: " ++ name))) ∧
    (s.inputsDict.any (fun p => p.1 == name) = false →
      addInput s name var =
        ({ s with inputsDict := s.inputsDict ++ [(name, var)] }, none)) := by
  refine ⟨?_, ?_, ?_, ?_⟩ <;> intro h <;> simp [addOutput, addInput, h]

/-- Witness for C4 at a concrete step: the first insertion succeeds. -/
theorem addSlot_spec_witness :
    addOutput compileStep "out" "v" =
      ({ compileStep with outputsDict := compileStep.outputsDict ++ [("out", "v")] }, none) :=
  (addSlot_spec compileStep "out" "v").2.1 (by decide)

/-- C8: a step built from a raw configuration declaring no `depends` key
has exactly its own name as its dependency set; in particular the injected
`rm_pr_label` step depends only on itself. -/
theorem step_default_self_dependency :
    (∀ (nm : String) (syn : Bool) (st : ScriptType)
        (np : StepNotificationPolicy) (raw : RawStepDict),
      raw.depends = none →
        (mkPipelineStep nm syn st np raw).depends = [nm] ∧
        ∀ x, x ∈ (mkPipelineStep nm syn st np raw).depends ↔ x = nm) ∧
    rmPrLabelStepInitial.depends = ["rm_pr_label"] := by
  constructor
  · intro nm syn st np raw hdep
    have hd : (mkPipelineStep nm syn st np raw).depends = [nm] := by
      unfold mkPipelineStep
      rw [hdep]
      cases raw.outputDir with
      | none => rfl
      | some d =>
        by_cases hde : d ≠ "" <;> simp [hde, addOutput]
    exact ⟨hd, by simp [hd]⟩
  · rfl

/-- Witness for C8 at a concrete raw configuration without `depends`. -/
theorem step_default_self_dependency_witness :
    (mkPipelineStep "a" false .bourneShell .defaultPolicy emptyRaw).depends
      = ["a"] :=
  (step_default_self_dependency.1 "a" false .bourneShell .defaultPolicy
    emptyRaw rfl).1

/-- C9: `validate` is read-only and idempotent — the state component of its
translation is the unchanged step, and a second run on that unchanged step
yields the identical outcome. -/
theorem validate_readonly_idempotent (s : PipelineStep) :
    (validateSt s).1 = s ∧ validateSt (validateSt s).1 = validateSt s :=
  ⟨rfl, rfl⟩

/-- C1: after the release transformer runs `process_pipeline_args`, the
release step's dependency-name set contains the name of every step
registered in the job at that time (hence is a superset of every other
step's name). -/
theorem release_step_depends_superset (rs : PipelineStep) (jv : JobVariant)
    (s : PipelineStep) (hs : s ∈ jv.stepsList) :
    s.name ∈ ((releaseProcessPipelineArgs rs jv).1).depends := by
  have hm : s.name ∈ jv.stepsList.map (fun s => s.name) :=
    List.mem_map_of_mem _ hs
  exact mem_foldl_addDependency _ rs s.name hm

/-- Witness for C1 at a concrete job with a user step and the injected
release step. -/
theorem release_step_depends_superset_witness :
    compileStep.name ∈
      ((releaseProcessPipelineArgs releaseStepInitial jvReleaseW).1).depends :=
  release_step_depends_superset releaseStepInitial jvReleaseW compileStep
    (by simp [jvReleaseW])

/-- C2 counterexample: with declared command `["bar"]` on a step named
`foo`, the code keeps the declared token as `argv[0]` (the line is `bar`),
while the claim demands it be replaced by the step's name (`foo`). -/
theorem execute_argv0_cex :
    execLine c2CexStep "" = "bar" ∧ specC2Line c2CexStep "" = "foo" ∧
      ¬ (execLine c2CexStep "" = specC2Line c2CexStep "") := by
  refine ⟨by decide, by decide, by decide⟩

/-- C2 (amended): the execution line is the space-joined argv in which
`argv[0]` — the step's name when no command is declared, the stringified
scalar for a non-list command, or the shell-escaped first declared token
for a list command — is optionally path-prefixed; the remaining declared
tokens are shell-escaped individually.  The hypothesis excludes the
declared empty token list, on which the source raises `IndexError`. -/
theorem execute_line_amended (s : PipelineStep) (pfx : String)
    (hne : ∀ tokens, s.rawExecute = some (.list tokens) → tokens ≠ []) :
    execLine s pfx = execLineAmended s pfx := by
  obtain ⟨n, sy, st, np, o, i, ex, im, d⟩ := s
  cases ex with
  | none => rfl
  | some es =>
    cases es with
    | str e => rfl
    | list tokens =>
      cases tokens with
      | nil => exact absurd rfl (hne [] rfl)
      | cons t0 ts => rfl

/-- Witness for C2 (amended) at a concrete step without a declared
command. -/
theorem execute_line_amended_witness :
    execLine compileStep "" = execLineAmended compileStep "" :=
  execute_line_amended compileStep ""
    (fun tokens h => by
      rw [show compileStep.rawExecute = none from rfl] at h
      exact Option.noConfusion h)

/-- C3 counterexample: a declared empty image reference contains no colon,
yet `validate` succeeds (the truthiness test skips the checks),
contradicting the claim for that step. -/
theorem validate_empty_image_cex :
    c3CexStep.rawImage = some "" ∧ strContains "" ':' = false ∧
      validateErr c3CexStep = none ∧ ¬ c3ClaimAt c3CexStep := by
  refine ⟨rfl, by decide, rfl, fun h => ?_⟩
  have h1 := h.1 (Or.inr (by decide))
  exact absurd h1 (by decide)

/-- C3 (amended): for a non-empty declared image reference, `validate`
succeeds exactly when every character is allowed and a colon is present,
and errors whenever a character is forbidden or the colon is missing; a
step with no image declared — or with an empty declared reference, which
the truthiness test treats the same way — passes. -/
theorem validate_image_amended (s : PipelineStep) :
    (s.rawImage = none → validateErr s = none) ∧
    (s.rawImage = some "" → validateErr s = none) ∧
    (∀ ref, s.rawImage = some ref → ref ≠ "" →
      ((validateErr s = none ↔
        (strAll allowedImageChar ref = true ∧ strContains ref ':' = true)) ∧
       ((¬ (strAll allowedImageChar ref = true) ∨
          ¬ (strContains ref ':' = true)) →
        (validateErr s).isSome = true))) := by
  refine ⟨?_, ?_, ?_⟩
  · intro h
    simp [validateErr, h]
  · intro h
    simp [validateErr, h]
  · intro ref h hne
    constructor
    · by_cases hall : strAll allowedImageChar ref = true
      · by_cases hcol : strContains ref ':' = true
        · simp [validateErr, h, hne, hall, hcol]
        · simp [validateErr, h, hne, hall, hcol]
      · simp [validateErr, h, hne, hall]
    · intro hor
      by_cases hall : strAll allowedImageChar ref = true
      · cases hor with
        | inl hl => exact absurd hall hl
        | inr hr => simp [validateErr, h, hne, hall, hr]
      · simp [validateErr, h, hne, hall]

/-- Witness for C3 (amended) at a concrete well-formed reference. -/
theorem validate_image_amended_witness :
    validateErr stepImgW = none ↔
      (strAll allowedImageChar "img:tag" = true ∧
        strContains "img:tag" ':' = true) :=
  ((validate_image_amended stepImgW).2.2 "img:tag" rfl (by decide)).1

theorem setMainTriggerFalse_pos (k : String) (r : Repository)
    (h : r.isMain = true) :
    setMainTriggerFalse (k, r) = (k, { r with trigger := false }) := by
  unfold setMainTriggerFalse
  exact if_pos h

theorem setMainTriggerFalse_neg (k : String) (r : Repository)
    (h : r.isMain = false) : setMainTriggerFalse (k, r) = (k, r) := by
  unfold setMainTriggerFalse
  exact if_neg (by simp [h])

theorem find_isMain_map (d : List (String × Repository)) :
    (d.map setMainTriggerFalse).find? (fun p => p.2.isMain) =
      (d.find? (fun p => p.2.isMain)).map
        (fun p => (p.1, { p.2 with trigger := false })) := by
  induction d with
  | nil => rfl
  | cons p t ih =>
    obtain ⟨k, r⟩ := p
    cases hm : r.isMain
    · rw [List.map_cons, setMainTriggerFalse_neg k r hm]
      simp [List.find?_cons, hm, ih]
    · rw [List.map_cons, setMainTriggerFalse_pos k r hm]
      simp [List.find?_cons, hm]

/-- C5: after the pull-request transformer runs `process_pipeline_args`,
the repository registered under the main repository's logical name is the
pull-request-flavoured variant for that logical name with its trigger flag
forced to true, and entries under every other logical name are
unchanged. -/
theorem pr_transformer_spec (jv : JobVariant) (mr r : Repository)
    (hmain : mainRepository jv = some mr)
    (hr : alookup jv.reposDict mr.logicalName = some r) :
    ∃ jv2, pullRequestProcessPipelineArgs jv = some jv2 ∧
      alookup jv2.reposDict mr.logicalName =
        some { r with isPullRequestVariant := true, trigger := true } ∧
      ∀ k, k ≠ mr.logicalName →
        alookup jv2.reposDict k = alookup jv.reposDict k := by
  have hpr : prRepository jv mr.logicalName =
      some { r with isPullRequestVariant := true } := by
    unfold prRepository
    rw [hr]
    rfl
  refine ⟨{ jv with reposDict := dictInsert jv.reposDict mr.logicalName { r with isPullRequestVariant := true, trigger := true } }, ?_, ?_, ?_⟩
  · unfold pullRequestProcessPipelineArgs
    rw [hmain]
    dsimp only
    rw [hpr]
  · exact alookup_dictInsert_self _ _ _
  · intro k hk
    exact alookup_dictInsert_ne _ _ _ _ hk

/-- Witness for C5 at a concrete job with two repositories. -/
theorem pr_transformer_spec_witness :
    ∃ jv2, pullRequestProcessPipelineArgs jvPrW = some jv2 ∧
      alookup jv2.reposDict mainRepoW.logicalName =
        some { mainRepoW with isPullRequestVariant := true, trigger := true } ∧
      ∀ k, k ≠ mainRepoW.logicalName →
        alookup jv2.reposDict k = alookup jvPrW.reposDict k :=
  pr_transformer_spec jvPrW mainRepoW mainRepoW (by decide) (by decide)

/-- C6: after the release transformer runs `process_pipeline_args`, the
main repository's trigger flag is false when the user's raw configuration
declares no `trigger` key, and is left unchanged — hence equal to the
user's configured value — when the key was declared. -/
theorem release_trigger_spec (rs : PipelineStep) (jv : JobVariant)
    (mr : Repository) (hmain : mainRepository jv = some mr) :
    (jv.rawRepoTrigger = none →
      mainRepository (releaseProcessPipelineArgs rs jv).2 =
        some { mr with trigger := false }) ∧
    (∀ b, jv.rawRepoTrigger = some b → mr.trigger = b →
      mainRepository (releaseProcessPipelineArgs rs jv).2 = some mr ∧
      mr.trigger = b) := by
  constructor
  · intro ht
    have hjv2 : (releaseProcessPipelineArgs rs jv).2 =
        { jv with reposDict := jv.reposDict.map setMainTriggerFalse } := by
      unfold releaseProcessPipelineArgs
      rw [hmain, ht]
      rfl
    rw [hjv2]
    unfold mainRepository at hmain ⊢
    rw [show ({ jv with reposDict := jv.reposDict.map setMainTriggerFalse }
        : JobVariant).reposDict = jv.reposDict.map setMainTriggerFalse
      from rfl]
    rw [find_isMain_map]
    cases hf : jv.reposDict.find? (fun p => p.2.isMain) with
    | none => rw [hf] at hmain; exact absurd hmain (by simp)
    | some p =>
      rw [hf] at hmain
      obtain ⟨k, r⟩ := p
      have : r = mr := by simpa using hmain
      subst this
      rfl
  · intro b hb htr
    have hjv2 : (releaseProcessPipelineArgs rs jv).2 = jv := by
      unfold releaseProcessPipelineArgs
      rw [hmain, hb]
      rfl
    rw [hjv2]
    exact ⟨hmain, htr⟩

/-- Witness for C6 at a concrete job without a declared `trigger` key. -/
theorem release_trigger_spec_witness :
    mainRepository
        (releaseProcessPipelineArgs releaseStepInitial jvReleaseW).2 =
      some { mainRepoW with trigger := false } :=
  (release_trigger_spec releaseStepInitial jvReleaseW mainRepoW
    (by decide)).1 rfl

theorem alookup_mergeInto (b o : List (String × MVal)) (k : String) :
    alookup (mergeInto b o) k =
      match alookup b k with
      | some v => some (match alookup o k with
                        | some w => merge v w
                        | none => v)
      | none => none := by
  induction b with
  | nil => simp [mergeInto, alookup]
  | cons p t ih =>
    obtain ⟨k0, v⟩ := p
    by_cases h : k0 = k
    · subst h
      simp [mergeInto, alookup]
    · simp [mergeInto, alookup, h, ih]

theorem newEntries_cons (b : List (String × MVal)) (k0 : String) (w : MVal)
    (t : List (String × MVal)) :
    newEntries b ((k0, w) :: t) =
      if hasKeyA b k0 then newEntries b t else (k0, w) :: newEntries b t := by
  unfold newEntries
  by_cases h : hasKeyA b k0 = true
  · rw [if_pos h]
    exact List.filter_cons_of_neg (by simp [h])
  · have hb0 : hasKeyA b k0 = false := by simpa using h
    rw [if_neg h]
    exact List.filter_cons_of_pos (by simp [hb0])

theorem alookup_newEntries (b o : List (String × MVal)) (k : String)
    (h : alookup b k = none) :
    alookup (newEntries b o) k = alookup o k := by
  have hb : hasKeyA b k = false := (hasKeyA_eq_false_iff b k).mpr h
  induction o with
  | nil => rfl
  | cons p t ih =>
    obtain ⟨k0, w⟩ := p
    by_cases h0 : k0 = k
    · subst h0
      simp [newEntries_cons, hb, alookup]
    · by_cases hk0 : hasKeyA b k0 = true
      · simp [newEntries_cons, hk0, alookup, h0, ih]
      · have hb0 : hasKeyA b k0 = false := by simpa using hk0
        simp [newEntries_cons, hb0, alookup, h0, ih]

/-- C7: the configured attribute merge is a deep merge — on a scalar
conflict the user (`other`) value wins, list values merge as the `base`
list concatenated with the not-already-present `other` elements in order,
and dicts merge key-wise: a key present on one side keeps its value, a key
present on both holds the recursive merge of the two values. -/
theorem merge_dicts_spec (b o : List (String × MVal)) (k : String)
    (a c : String) (xs ys : List MVal) :
    merge (.atom a) (.atom c) = .atom c ∧
    merge (.list xs) (.list ys) =
      .list (xs ++ ys.filter (fun e => !(xs.any (fun x => mbeq x e)))) ∧
    ∃ m, merge (.dict b) (.dict o) = .dict m ∧
      alookup m k =
        match alookup b k, alookup o k with
        | some v, some w => some (merge v w)
        | some v, none => some v
        | none, some w => some w
        | none, none => none := by
  refine ⟨?_, ?_, mergeInto b o ++ newEntries b o, ?_, ?_⟩
  · simp [merge]
  · simp [merge]
  · simp [merge]
  · rw [alookup_append, alookup_mergeInto]
    cases hbk : alookup b k with
    | some v => cases hok : alookup o k <;> simp
    | none =>
      rw [alookup_newEntries b o k hbk]
      cases hok : alookup o k <;> simp

theorem pySplit_ne_nil (sep : Char) (s : List Char) : pySplit sep s ≠ [] := by
  induction s with
  | nil => simp [pySplit]
  | cons c t ih =>
    by_cases h : c = sep
    · simp [pySplit, h]
    · cases hr : pySplit sep t with
      | nil => exact absurd hr ih
      | cons p r => simp [pySplit, h, hr]

theorem pyJoin_cons (sep : Char) (x : List Char) (l : List (List Char))
    (h : l ≠ []) : pyJoin sep (x :: l) = x ++ sep :: pyJoin sep l := by
  cases l with
  | nil => exact absurd rfl h
  | cons y t => rfl

theorem pyJoin_pySplit (sep : Char) (s : List Char) :
    pyJoin sep (pySplit sep s) = s := by
  induction s with
  | nil => rfl
  | cons c t ih =>
    by_cases h : c = sep
    · subst h
      have h1 : pySplit c (c :: t) = [] :: pySplit c t := by simp [pySplit]
      rw [h1, pyJoin_cons c [] _ (pySplit_ne_nil c t), ih]
      rfl
    · cases hr : pySplit sep t with
      | nil => exact absurd hr (pySplit_ne_nil sep t)
      | cons p r =>
        have h1 : pySplit sep (c :: t) = (c :: p) :: r := by
          simp [pySplit, h, hr]
        rw [h1]
        cases r with
        | nil =>
          have hp : p = t := by rw [hr] at ih; exact ih
          rw [show pyJoin sep [c :: p] = c :: p from rfl, hp]
        | cons q r2 =>
          have ih2 : p ++ sep :: pyJoin sep (q :: r2) = t := by
            rw [hr] at ih
            exact ih
          rw [show pyJoin sep ((c :: p) :: q :: r2) =
              (c :: p) ++ sep :: pyJoin sep (q :: r2) from rfl]
          rw [show (c :: p) ++ sep :: pyJoin sep (q :: r2) =
              c :: (p ++ sep :: pyJoin sep (q :: r2)) from rfl]
          rw [ih2]

theorem pySplit_append (sep : Char) (a r : List Char) :
    sep ∉ a → pySplit sep (a ++ sep :: r) = a :: pySplit sep r := by
  induction a with
  | nil =>
    intro h
    simp [pySplit]
  | cons c t ih =>
    intro h
    have hc : c ≠ sep := by
      intro e
      subst e
      exact h (List.mem_cons_self c t)
    have ht : sep ∉ t := fun hm => h (List.mem_cons_of_mem c hm)
    rw [List.cons_append]
    simp [pySplit, hc, ih ht]

theorem pySplit_no_sep (sep : Char) (a : List Char) :
    sep ∉ a → pySplit sep a = [a] := by
  induction a with
  | nil =>
    intro h
    rfl
  | cons c t ih =>
    intro h
    have hc : c ≠ sep := by
      intro e
      subst e
      exact h (List.mem_cons_self c t)
    have ht : sep ∉ t := fun hm => h (List.mem_cons_of_mem c hm)
    simp [pySplit, hc, ih ht]

theorem normalise_of_host (s : List Char) (hat : '@' ∉ s)
    (hdot : '.' ∈ (pySplit ':' ((pySplit '/' s).headD [])).headD []) :
    normaliseImageReference s = s := by
  unfold normaliseImageReference
  rw [if_neg hat]
  dsimp only
  rw [if_neg (fun hn => hn hdot)]
  exact pyJoin_pySplit '/' s

/-- C10: `normalise_image_reference` is idempotent — applying it to its own
result returns that result unchanged — and any reference containing `@` is
returned as-is. -/
theorem normalise_idempotent (s : List Char) :
    normaliseImageReference (normaliseImageReference s) =
      normaliseImageReference s ∧
    ('@' ∈ s → normaliseImageReference s = s) := by
  constructor
  · by_cases hat : '@' ∈ s
    · have he : normaliseImageReference s = s := by
        unfold normaliseImageReference
        rw [if_pos hat]
      rw [he]
      exact he
    · by_cases hdot : '.' ∈ (pySplit ':' ((pySplit '/' s).headD [])).headD []
      · rw [normalise_of_host s hat hdot]
        exact normalise_of_host s hat hdot
      · have hR_at : '@' ∉ ("registry-1.docker.io".data : List Char) := by
          decide
        have hR_slash : '/' ∉ ("registry-1.docker.io".data : List Char) := by
          decide
        have hR_split : pySplit ':' ("registry-1.docker.io".data) =
            ["registry-1.docker.io".data] :=
          pySplit_no_sep ':' _ (by decide)
        have hR_dot : '.' ∈ ("registry-1.docker.io".data : List Char) := by
          decide
        have hpne : pySplit '/' s ≠ [] := pySplit_ne_nil '/' s
        have hform : ∃ rest, normaliseImageReference s =
            "registry-1.docker.io".data ++ '/' :: rest ∧ '@' ∉ rest := by
          have hstep : normaliseImageReference s =
              pyJoin '/' ("registry-1.docker.io".data ::
                (if (pySplit '/' s).length = 1 then
                  "library".data :: pySplit '/' s else pySplit '/' s)) := by
            unfold normaliseImageReference
            rw [if_neg hat]
            dsimp only
            rw [if_pos hdot]
          by_cases hlen : (pySplit '/' s).length = 1
          · refine ⟨"library".data ++ '/' :: s, ?_, ?_⟩
            · rw [hstep, if_pos hlen]
              rw [pyJoin_cons '/' _ _ (by simp)]
              rw [pyJoin_cons '/' _ _ hpne, pyJoin_pySplit]
            · intro hm
              rcases List.mem_append.mp hm with h1 | h2
              · exact absurd h1 (by decide)
              · rcases List.mem_cons.mp h2 with h3 | h4
                · exact absurd h3 (by decide)
                · exact hat h4
          · refine ⟨s, ?_, hat⟩
            rw [hstep, if_neg hlen]
            rw [pyJoin_cons '/' _ _ hpne, pyJoin_pySplit]
        obtain ⟨rest, hns, hrest_at⟩ := hform
        rw [hns]
        have hat2 : '@' ∉ ("registry-1.docker.io".data ++ '/' :: rest) := by
          intro hm
          rcases List.mem_append.mp hm with h1 | h2
          · exact hR_at h1
          · rcases List.mem_cons.mp h2 with h3 | h4
            · exact absurd h3 (by decide)
            · exact hrest_at h4
        have hsplit2 : pySplit '/' ("registry-1.docker.io".data ++ '/' :: rest) =
            "registry-1.docker.io".data :: pySplit '/' rest :=
          pySplit_append '/' _ rest hR_slash
        have hdot2 : '.' ∈ (pySplit ':'
            ((pySplit '/' ("registry-1.docker.io".data ++ '/' :: rest)).headD
              [])).headD [] := by
          rw [hsplit2]
          rw [show ("registry-1.docker.io".data ::
              pySplit '/' rest).headD [] = "registry-1.docker.io".data
            from rfl]
          rw [hR_split]
          exact hR_dot
        exact normalise_of_host _ hat2 hdot2
  · intro h
    unfold normaliseImageReference
    rw [if_pos h]

/-- Witness for C10 at a digest-style reference containing an `@`. -/
theorem normalise_idempotent_witness :
    normaliseImageReference ("img@sha256:abc".data) = "img@sha256:abc".data :=
  (normalise_idempotent ("img@sha256:abc".data)).2 (by decide)
